import Mathlib

/-!
Verification of the Galton-board ("bean machine") simulator/renderer in
`bean_machine_mnt.py`.

Shallow embedding conventions:
* Python `float` arithmetic is embedded as exact rational arithmetic (`ℚ`);
  the pseudorandom draws (`gauss`, `random`) are abstracted as arbitrary
  rational parameters, so theorems quantify over every possible sequence of
  draws.
* Python `int(x)` (truncation toward zero) is `pyTrunc`.
* Python `//` on non-negative ints is `Nat` division (floor division).
* The PIL image buffer is embedded as the list of drawn rectangles
  (`Bar`): geometry plus fill colour.  Operations that raise in Python
  (`max([])` on an empty list, a failing `Image.save`) are embedded with
  `Option` / `Except`.
-/

namespace BeanMachine

/-- Class constant `GaltonBoard.PEG_RADIUS = 4`. -/
def PEG_RADIUS : ℕ := 4

/-- Class constant `GaltonBoard.BACKGROUND_COLOR = (102, 51, 153)`. -/
def BACKGROUND_COLOR : ℕ × ℕ × ℕ := (102, 51, 153)

/-- Class constant `GaltonBoard.LEFT_HALF_COLOR = (122, 122, 244)`. -/
def LEFT_HALF_COLOR : ℕ × ℕ × ℕ := (122, 122, 244)

/-- Class constant `GaltonBoard.RIGHT_HALF_COLOR = (122, 244, 122)`. -/
def RIGHT_HALF_COLOR : ℕ × ℕ × ℕ := (122, 244, 122)

/-- The board configuration fixed by `GaltonBoard.__init__`: the four
constructor arguments plus the instance attributes `elasticity`,
`peg_offset` and `initial_variance` set there. -/
structure Config where
  num_rows : ℕ
  num_balls : ℕ
  board_width : ℕ
  board_height : ℕ
  elasticity : ℚ
  peg_offset : ℚ
  initial_variance : ℚ

/-- Constructor `GaltonBoard.__init__`: `elasticity = 0.7`,
`peg_offset = PEG_RADIUS * 0.5`, `initial_variance = 2.0`. -/
def mkBoard (num_rows num_balls board_width board_height : ℕ) : Config :=
  { num_rows := num_rows
    num_balls := num_balls
    board_width := board_width
    board_height := board_height
    elasticity := 0.7
    peg_offset := (PEG_RADIUS : ℚ) * 0.5
    initial_variance := 2.0 }

/-- Python `int(x)`: truncation toward zero. -/
def pyTrunc (q : ℚ) : ℤ :=
  if q < 0 then -⌊-q⌋ else ⌊q⌋

/-- Line 77 of `calculate_bin_index`:
`peg_center = position + (row % 2) * self.peg_offset`
. -/
def peg_center (cfg : Config) (position : ℚ) (row : ℕ) : ℚ :=
  position + ((row % 2 : ℕ) : ℚ) * cfg.peg_offset

/-- Line 78 of `calculate_bin_index`:
`distance_from_center = (position - peg_center) / self.PEG_RADIUS`
. -/
def distance_from_center (position pegCenter : ℚ) : ℚ :=
  (position - pegCenter) / (PEG_RADIUS : ℚ)

/-- One iteration of the `for row in range(self.num_rows)` loop of
`calculate_bin_index` (lines 76–89).  State is `(position, momentum)`;
`u` is the `random()` draw of this row. -/
def rowStep (cfg : Config) (row : ℕ) (u : ℚ) (pm : ℚ × ℚ) : ℚ × ℚ :=
  let position := pm.1
  let momentum := pm.2
  let pegCenter := peg_center cfg position row
  let d := distance_from_center position pegCenter
  let bounce_probability := max (0.2 : ℚ) (min 0.8 (0.5 + 0.1 * d))
  let direction : ℚ := if u < bounce_probability then 1 else -1
  let bounce_force := (1.0 - |d|) * cfg.elasticity
  let momentum' := momentum * 0.8 + direction * bounce_force * (PEG_RADIUS : ℚ) * 2
  let position' := position + momentum'
  let position'' := max (PEG_RADIUS : ℚ) (min ((cfg.board_width : ℚ) - (PEG_RADIUS : ℚ)) position')
  (position'', momentum')

/-- Function `calculate_bin_index` (lines 71–91).  `noise` stands for the
`gauss(0, self.initial_variance)` draw and `us row` for the `random()`
draw of each row; the starting position is `board_width / 2 + noise`
(true division) and the result is `int(position)`. -/
def calculate_bin_index (cfg : Config) (noise : ℚ) (us : ℕ → ℚ) : ℤ :=
  let init : ℚ × ℚ := ((cfg.board_width : ℚ) / 2 + noise, 0)
  pyTrunc (((List.range cfg.num_rows).foldl (fun pm row => rowStep cfg row (us row) pm) init).1)

/-- The slice `slots[start:end]` of `smooth_slot_counts`, with
`start = max(0, i - 3)` and `end = min(len(slots), i + 3 + 1)`
(`window_size = 3`). -/
def window (slots : List ℕ) (i : ℕ) : List ℕ :=
  (slots.drop (max 0 (i - 3))).take (min slots.length (i + 3 + 1) - max 0 (i - 3))

/-- Function `smooth_slot_counts` (lines 50–56): `self.slot_counts` has length
`board_width`, and entry `i` becomes `sum(slots[start:end]) // (end - start)`.
`Nat` subtraction makes `i - 3` already `max(0, i - 3)`; the `max 0` is kept
to mirror the source.  (When `end - start = 0`, which needs
`len(slots) < len(self.slot_counts)`, Python raises `ZeroDivisionError`;
`Nat` division returns `0` there — the claims below only concern inputs of
matching length, where `end - start ≥ 1`.) -/
def smooth_slot_counts (board_width : ℕ) (slots : List ℕ) : List ℕ :=
  (List.range board_width).map fun i =>
    (window slots i).sum / (min slots.length (i + 3 + 1) - max 0 (i - 3))

/-- Function `calculate_bar_height` (lines 112–114):
`0 if max_frequency == 0 else int(frequency / max_frequency * self.board_height)`. -/
def calculate_bar_height (board_height : ℕ) (frequency max_frequency : ℕ) : ℤ :=
  if max_frequency = 0 then 0
  else pyTrunc ((frequency : ℚ) / (max_frequency : ℚ) * (board_height : ℚ))

/-- One rectangle drawn by `draw.rectangle([x0, y0, x1, y1], fill=color)`. -/
structure Bar where
  x0 : ℤ
  y0 : ℤ
  x1 : ℤ
  y1 : ℤ
  color : ℕ × ℕ × ℕ
  deriving DecidableEq, Repr

/-- Function `draw_bar` (lines 101–110).  `x0 = bin_index * bar_width`,
`y0 = board_height - bar_height`, `x1 = x0 + bar_width`,
`y1 = board_height`; the fill colour is `LEFT_HALF_COLOR` when
`x0 < board_width // 2`, else `RIGHT_HALF_COLOR`. -/
def draw_bar (board_width board_height : ℕ) (frequency bin_index max_frequency bar_width : ℕ) :
    Bar :=
  let bar_height := calculate_bar_height board_height frequency max_frequency
  let x0 : ℤ := (bin_index : ℤ) * (bar_width : ℤ)
  { x0 := x0
    y0 := (board_height : ℤ) - bar_height
    x1 := x0 + (bar_width : ℤ)
    y1 := (board_height : ℤ)
    color := if x0 < ((board_width / 2 : ℕ) : ℤ) then LEFT_HALF_COLOR else RIGHT_HALF_COLOR }

/-- Function `draw_histogram` (lines 93–99).  `max(self.slot_counts)` raises
`ValueError` on an empty list (embedded as `none`; the
`board_width // len(slot_counts)` on the next line would also divide by
zero).  Otherwise `bar_width = max(1, board_width // len(slot_counts))`
and one bar is drawn per `(bin_index, frequency)` of
`enumerate(slot_counts)`. -/
def draw_histogram (board_width board_height : ℕ) (slot_counts : List ℕ) :
    Option (List Bar) :=
  match slot_counts.max? with
  | none => none
  | some max_frequency =>
      let bar_width := max 1 (board_width / slot_counts.length)
      some (slot_counts.enum.map fun p =>
        draw_bar board_width board_height p.2 p.1 max_frequency bar_width)

/-- Line 43 of `simulate`, `slots[bin_index] += 1`: Python list indexing, where a
negative index within `-len .. -1` wraps around from the end and anything
else out of range raises `IndexError` (embedded as `none`). -/
def pyIncrAt (slots : List ℕ) (idx : ℤ) : Option (List ℕ) :=
  let j : ℤ := if idx < 0 then idx + (slots.length : ℤ) else idx
  if 0 ≤ j ∧ j < (slots.length : ℤ) then
    some (slots.set j.toNat (slots.getD j.toNat 0 + 1))
  else none

/-- Function `simulate` (lines 36–48): starting from `slots = [0] * board_width`,
drop `num_balls` balls (ball `i` gets the draws `noise i` and `us i`),
increment the slot of each computed bin index, then store
`smooth_slot_counts slots` into `self.slot_counts`.  The progress `print`
is a side effect with no influence on the state and is omitted. -/
def simulate (cfg : Config) (noise : ℕ → ℚ) (us : ℕ → ℕ → ℚ) : Option (List ℕ) :=
  ((List.range cfg.num_balls).foldlM
      (fun slots i => pyIncrAt slots (calculate_bin_index cfg (noise i) (us i)))
      (List.replicate cfg.board_width 0)).map
    (smooth_slot_counts cfg.board_width)

/-- Function `save_image` (lines 63–69).  The underlying
`self.generate_image().save(filename)` is external I/O, abstracted as its
outcome `underlying`; the function returns the printed error messages
together with the final outcome: on success nothing is printed, on failure
the `except` branch prints `"Error saving image: ..."` and `raise`
re-raises the same exception. -/
def save_image (underlying : Except String Unit) : List String × Except String Unit :=
  match underlying with
  | Except.ok _ => ([], Except.ok ())
  | Except.error e => (["Error saving image: " ++ e], Except.error e)

end BeanMachine

namespace BeanMachine

/-!  Theorems about the embedded program.  -/

/-- C4: in every row of the per-ball loop of `calculate_bin_index`,
`distance_from_center = (position - peg_center) / PEG_RADIUS` equals
`-(row % 2) * peg_offset / PEG_RADIUS`, independently of the ball's
current position value. -/
theorem distance_from_center_independent_of_position
    (cfg : Config) (position : ℚ) (row : ℕ) :
    distance_from_center position (peg_center cfg position row) =
      -(((row % 2 : ℕ) : ℚ)) * cfg.peg_offset / (PEG_RADIUS : ℚ) := by
  simp only [distance_from_center, peg_center]
  ring

/-- C5: in each row, writing `d` for the distance from center, the bounce
probability is `0.5 + 0.1 * d` clamped into `[0.2, 0.8]`, the direction is
`+1` exactly when the uniform draw is below that probability and `-1`
otherwise, the bounce force is `(1 - |d|) * elasticity`, the new momentum
is `0.8 * old + direction * bounce_force * PEG_RADIUS * 2`, and the stored
position is the old position incremented by the new momentum (then clamped
to the board). -/
theorem rowStep_bounce_and_momentum_update
    (cfg : Config) (row : ℕ) (u : ℚ) (p m : ℚ) :
    (rowStep cfg row u (p, m)).2 =
      0.8 * m +
        (if u < min (0.8 : ℚ) (max 0.2 (0.5 + 0.1 * distance_from_center p (peg_center cfg p row)))
          then 1 else -1) *
          ((1 - |distance_from_center p (peg_center cfg p row)|) * cfg.elasticity) *
          (PEG_RADIUS : ℚ) * 2 ∧
    (rowStep cfg row u (p, m)).1 =
      max (PEG_RADIUS : ℚ) (min ((cfg.board_width : ℚ) - (PEG_RADIUS : ℚ))
        (p + (rowStep cfg row u (p, m)).2)) := by
  have hc : max (0.2 : ℚ) (min 0.8 (0.5 + 0.1 * distance_from_center p (peg_center cfg p row))) =
      min (0.8 : ℚ) (max 0.2 (0.5 + 0.1 * distance_from_center p (peg_center cfg p row))) := by
    rw [max_min_distrib_left]
    norm_num
  constructor
  · simp only [rowStep, hc]
    norm_num
    ring
  · rfl

/-- C9: `save_image` propagates exactly the outcome of the underlying
image save: the final outcome equals the underlying one (so it raises
exactly when the save fails and never silently succeeds), and an error
message is printed exactly in the failure case. -/
theorem save_image_propagates_failure (u : Except String Unit) :
    (save_image u).2 = u ∧ ((save_image u).1 ≠ [] ↔ ∃ e, u = Except.error e) := by
  cases u with
  | ok a => cases a; simp [save_image]
  | error e => simp [save_image]

/-- C10: `draw_histogram` on the slot counts of a board built with
`board_width = 0` (an empty list) fails — `max` of an empty sequence —
while for every `board_width ≥ 1` it succeeds on the constructed
slot counts. -/
theorem draw_histogram_empty_fails_nonempty_succeeds :
    draw_histogram 0 667 (List.replicate 0 0) = none ∧
      ∀ (W H : ℕ), 1 ≤ W →
        ∃ bars, draw_histogram W H (List.replicate W 0) = some bars := by
  constructor
  · rfl
  · intro W H hW
    match W, hW with
    | (n + 1), _ => exact ⟨_, rfl⟩

/-- Closed witness for `draw_histogram_empty_fails_nonempty_succeeds`,
instantiated at `board_width = 1`, `board_height = 667`. -/
theorem draw_histogram_empty_fails_nonempty_succeeds_witness :
    draw_histogram 0 667 (List.replicate 0 0) = none ∧
      ∃ bars, draw_histogram 1 667 (List.replicate 1 0) = some bars :=
  ⟨draw_histogram_empty_fails_nonempty_succeeds.1,
    draw_histogram_empty_fails_nonempty_succeeds.2 1 667 (by decide)⟩

end BeanMachine

namespace BeanMachine

/-- C6: `calculate_bar_height` returns `0` when the maximum frequency is
`0` and `floor(frequency / max_frequency * board_height)` otherwise; in
particular for `slot_counts = [10, 0, 5]` with `board_height = 100` and
maximum `10` the bar heights are `[100, 0, 50]`. -/
theorem calculate_bar_height_spec :
    (∀ H f M : ℕ, calculate_bar_height H f M =
        if M = 0 then 0 else ⌊(f : ℚ) / (M : ℚ) * (H : ℚ)⌋) ∧
      ([10, 0, 5] : List ℕ).map (fun f => calculate_bar_height 100 f 10) =
        [100, 0, 50] := by
  have key : ∀ H f M : ℕ, calculate_bar_height H f M =
      if M = 0 then 0 else ⌊(f : ℚ) / (M : ℚ) * (H : ℚ)⌋ := by
    intro H f M
    by_cases hM : M = 0
    · simp [calculate_bar_height, hM]
    · rw [calculate_bar_height, if_neg hM, if_neg hM, pyTrunc, if_neg]
      push_neg
      positivity
  refine ⟨key, ?_⟩
  simp only [List.map_cons, List.map_nil, key]
  norm_num

/-- C3: the bar drawn by `draw_bar` has left edge
`x0 = bin_index * bar_width` and is filled with the left colour exactly
when `x0 < board_width / 2` (Python `//`, integer floor division — the
boundary pinned by the claim's own `board_width = 3` example) and with the
right colour otherwise; for `board_width = 3` and
`slot_counts = [10, 0, 5]` the three columns are coloured LEFT, RIGHT,
RIGHT. -/
theorem draw_bar_color_split :
    (∀ (W H f i M bw : ℕ),
        (draw_bar W H f i M bw).x0 = (i : ℤ) * (bw : ℤ) ∧
        ((draw_bar W H f i M bw).color = LEFT_HALF_COLOR ↔
          (i : ℤ) * (bw : ℤ) < ((W / 2 : ℕ) : ℤ)) ∧
        ((draw_bar W H f i M bw).color = RIGHT_HALF_COLOR ↔
          ¬ (i : ℤ) * (bw : ℤ) < ((W / 2 : ℕ) : ℤ))) ∧
      (draw_histogram 3 100 [10, 0, 5]).map (fun bars => bars.map Bar.color) =
        some [LEFT_HALF_COLOR, RIGHT_HALF_COLOR, RIGHT_HALF_COLOR] := by
  constructor
  · intro W H f i M bw
    refine ⟨rfl, ?_, ?_⟩
    · simp only [draw_bar]
      split_ifs with h
      · simpa using h
      · constructor
        · exact fun hcon => absurd hcon (by decide)
        · exact fun hcon => absurd hcon h
    · simp only [draw_bar]
      split_ifs with h
      · constructor
        · exact fun hcon => absurd hcon (by decide)
        · exact fun hcon => absurd h hcon
      · simpa using h
  · decide

end BeanMachine

namespace BeanMachine

/-- Sum of the Python slice `l[s:e]` (for `e ≤ len l`) as an indexed sum. -/
lemma sum_take_drop_eq_sum_Ico (l : List ℕ) (s e : ℕ) (he : e ≤ l.length) :
    ((l.drop s).take (e - s)).sum = ∑ j ∈ Finset.Ico s e, l.getD j 0 := by
  induction e with
  | zero =>
    simp [Finset.Ico_eq_empty_of_le (Nat.zero_le s)]
  | succ e ih =>
    rcases Nat.lt_or_ge e s with hse | hse
    · have h1 : e + 1 - s = 0 := by omega
      have h2 : Finset.Ico s (e + 1) = ∅ := Finset.Ico_eq_empty_of_le (by omega)
      simp [h1, h2]
    · have he' : e ≤ l.length := by omega
      have hlt : e < l.length := by omega
      have h1 : e + 1 - s = (e - s) + 1 := by omega
      rw [h1, List.take_succ, List.sum_append, ih he', Finset.sum_Ico_succ_top hse]
      congr 1
      rw [List.getElem?_drop]
      have h2 : s + (e - s) = e := by omega
      rw [h2, List.getElem?_eq_getElem hlt, List.getD_eq_getElem _ _ hlt]
      simp

/-- C2: for a raw-count list of the same length as the slot counts, entry
`i` of the smoothed counts is the floor-divided average of
`raw[max(0, i-3) : min(len raw, i+3+1)]`, dividing by the actual
(edge-truncated) window size — no wrapping, no zero-padding. -/
theorem smooth_slot_counts_entry_eq_window_average
    (raw : List ℕ) (W : ℕ) (hlen : raw.length = W) (i : ℕ) (hi : i < W) :
    (smooth_slot_counts W raw).getD i 0 =
      (∑ j ∈ Finset.Ico (max 0 (i - 3)) (min raw.length (i + 3 + 1)), raw.getD j 0) /
        (min raw.length (i + 3 + 1) - max 0 (i - 3)) := by
  have hidx : i < ((List.range W).map fun i =>
      (window raw i).sum / (min raw.length (i + 3 + 1) - max 0 (i - 3))).length := by
    simpa using hi
  rw [smooth_slot_counts, List.getD_eq_getElem _ _ hidx, List.getElem_map, List.getElem_range]
  rw [window, sum_take_drop_eq_sum_Ico raw _ _ (min_le_left _ _)]

/-- Closed witness for `smooth_slot_counts_entry_eq_window_average` at
`raw = [1, 2, 3]`, `board_width = 3`, `i = 0`. -/
theorem smooth_slot_counts_entry_eq_window_average_witness :
    (smooth_slot_counts 3 [1, 2, 3]).getD 0 0 =
      (∑ j ∈ Finset.Ico (max 0 (0 - 3)) (min ([1, 2, 3] : List ℕ).length (0 + 3 + 1)),
          ([1, 2, 3] : List ℕ).getD j 0) /
        (min ([1, 2, 3] : List ℕ).length (0 + 3 + 1) - max 0 (0 - 3)) :=
  smooth_slot_counts_entry_eq_window_average [1, 2, 3] 3 rfl 0 (by decide)

/-- Every member of a list of naturals is at most its `foldr max 0`. -/
lemma le_foldr_max (l : List ℕ) (x : ℕ) (hx : x ∈ l) : x ≤ l.foldr max 0 := by
  induction l with
  | nil => cases hx
  | cons a as ih =>
    rcases List.mem_cons.mp hx with rfl | h
    · exact le_max_left _ _
    · exact le_trans (ih h) (le_max_right _ _)

/-- C7: on a raw input of the same length as the slot counts (the board
width), `smooth_slot_counts` produces a list whose length is the board
width, and every entry is a non-negative integer bounded by the maximum
raw value in its window. -/
theorem smooth_slot_counts_length_and_window_max_bound
    (raw : List ℕ) (W : ℕ) (hlen : raw.length = W) :
    (smooth_slot_counts W raw).length = W ∧
      ∀ i, i < W →
        0 ≤ (smooth_slot_counts W raw).getD i 0 ∧
        (smooth_slot_counts W raw).getD i 0 ≤ (window raw i).foldr max 0 := by
  constructor
  · simp [smooth_slot_counts]
  · intro i hi
    refine ⟨Nat.zero_le _, ?_⟩
    have hidx : i < ((List.range W).map fun i =>
        (window raw i).sum / (min raw.length (i + 3 + 1) - max 0 (i - 3))).length := by
      simpa using hi
    rw [smooth_slot_counts, List.getD_eq_getElem _ _ hidx, List.getElem_map, List.getElem_range]
    have hsum : (window raw i).sum ≤
        (window raw i).length * (window raw i).foldr max 0 := by
      have h := List.sum_le_card_nsmul (window raw i) ((window raw i).foldr max 0)
        (fun x hx => le_foldr_max _ _ hx)
      simpa [smul_eq_mul] using h
    have hwlen : (window raw i).length ≤ min raw.length (i + 3 + 1) - max 0 (i - 3) := by
      rw [window, List.length_take]
      exact min_le_left _ _
    calc (window raw i).sum / (min raw.length (i + 3 + 1) - max 0 (i - 3))
        ≤ ((window raw i).length * (window raw i).foldr max 0) /
            (min raw.length (i + 3 + 1) - max 0 (i - 3)) := Nat.div_le_div_right hsum
      _ ≤ ((min raw.length (i + 3 + 1) - max 0 (i - 3)) * (window raw i).foldr max 0) /
            (min raw.length (i + 3 + 1) - max 0 (i - 3)) :=
          Nat.div_le_div_right (Nat.mul_le_mul_right _ hwlen)
      _ ≤ (window raw i).foldr max 0 := by
          rcases Nat.eq_zero_or_pos (min raw.length (i + 3 + 1) - max 0 (i - 3)) with hk | hk
          · rw [hk]
            simp
          · rw [Nat.mul_div_cancel_left _ hk]

/-- Closed witness for `smooth_slot_counts_length_and_window_max_bound` at
`raw = [1, 2, 3]`, `board_width = 3`. -/
theorem smooth_slot_counts_length_and_window_max_bound_witness :
    (smooth_slot_counts 3 [1, 2, 3]).length = 3 ∧
      ∀ i, i < 3 →
        0 ≤ (smooth_slot_counts 3 [1, 2, 3]).getD i 0 ∧
        (smooth_slot_counts 3 [1, 2, 3]).getD i 0 ≤ (window [1, 2, 3] i).foldr max 0 :=
  smooth_slot_counts_length_and_window_max_bound [1, 2, 3] 3 rfl

end BeanMachine

namespace BeanMachine

/-- Folding `max` over a list of zeros from `0` gives `0`. -/
lemma foldl_max_replicate_zero (n : ℕ) :
    (List.replicate n (0 : ℕ)).foldl max 0 = 0 := by
  induction n with
  | zero => rfl
  | succ n ih => simpa [List.replicate_succ] using ih

/-- Maximum of a non-empty all-zero slot list. -/
lemma max?_cons_zero_replicate (n : ℕ) :
    (0 :: List.replicate n (0 : ℕ)).max? = some 0 := by
  show some ((List.replicate n (0 : ℕ)).foldl max 0) = some 0
  rw [foldl_max_replicate_zero]

/-- Every smoothing window over an all-zero raw list sums to zero. -/
lemma window_replicate_zero_sum (n i : ℕ) :
    (window (List.replicate n 0) i).sum = 0 := by
  apply List.sum_eq_zero
  intro x hx
  exact List.eq_of_mem_replicate (List.mem_of_mem_drop (List.mem_of_mem_take hx))

/-- Smoothing an all-zero raw list yields all-zero slot counts. -/
lemma smooth_replicate_zero (W n : ℕ) :
    smooth_slot_counts W (List.replicate n 0) = List.replicate W 0 := by
  rw [smooth_slot_counts, List.eq_replicate]
  constructor
  · simp
  · intro b hb
    rcases List.mem_map.mp hb with ⟨i, _, rfl⟩
    rw [window_replicate_zero_sum]
    exact Nat.zero_div _

/-- C8: with `num_balls = 0`, `simulate` leaves every slot count zero, and
the subsequent rendering succeeds (for a non-degenerate width) with every
bar of height zero (`y0 = y1 = board_height`): the zero-maximum case is
handled by the zero-guard of `calculate_bar_height`, not by an error. -/
theorem simulate_zero_balls_all_zero
    (cfg : Config) (noise : ℕ → ℚ) (us : ℕ → ℕ → ℚ) (h0 : cfg.num_balls = 0) :
    simulate cfg noise us = some (List.replicate cfg.board_width 0) ∧
      (1 ≤ cfg.board_width →
        (draw_histogram cfg.board_width cfg.board_height
            (List.replicate cfg.board_width 0)).isSome = true) ∧
      ∀ bars, draw_histogram cfg.board_width cfg.board_height
            (List.replicate cfg.board_width 0) = some bars →
          ∀ b ∈ bars, b.y0 = (cfg.board_height : ℤ) ∧ b.y1 = (cfg.board_height : ℤ) := by
  refine ⟨?_, ?_, ?_⟩
  · rw [simulate, h0]
    simp [smooth_replicate_zero]
  · intro hW
    obtain ⟨n, hn⟩ : ∃ n, cfg.board_width = n + 1 := ⟨cfg.board_width - 1, by omega⟩
    rw [hn]
    simp [draw_histogram, List.replicate_succ, max?_cons_zero_replicate]
  · intro bars hbars b hb
    cases hW : cfg.board_width with
    | zero =>
      rw [hW] at hbars
      simp [draw_histogram] at hbars
    | succ n =>
      rw [hW] at hbars
      rw [List.replicate_succ] at hbars
      simp only [draw_histogram, max?_cons_zero_replicate, Option.some.injEq] at hbars
      subst hbars
      rcases List.mem_map.mp hb with ⟨p, _, rfl⟩
      constructor
      · simp [draw_bar, calculate_bar_height]
      · rfl

/-- Closed witness for `simulate_zero_balls_all_zero` at the configuration
`mkBoard 12 0 3 100`. -/
theorem simulate_zero_balls_all_zero_witness :
    simulate (mkBoard 12 0 3 100) (fun _ => 0) (fun _ _ => 0) =
        some (List.replicate 3 0) ∧
      (1 ≤ 3 →
        (draw_histogram 3 100 (List.replicate 3 0)).isSome = true) ∧
      ∀ bars, draw_histogram 3 100 (List.replicate 3 0) = some bars →
          ∀ b ∈ bars, b.y0 = (100 : ℤ) ∧ b.y1 = (100 : ℤ) :=
  simulate_zero_balls_all_zero (mkBoard 12 0 3 100) (fun _ => 0) (fun _ _ => 0) rfl

end BeanMachine

namespace BeanMachine

/-- After any row iteration on a board of width at least `2 * PEG_RADIUS`,
the stored (clamped) position lies in `[PEG_RADIUS, board_width - PEG_RADIUS]`. -/
lemma rowStep_fst_bounds (cfg : Config) (row : ℕ) (u : ℚ) (pm : ℚ × ℚ)
    (hW : 2 * PEG_RADIUS ≤ cfg.board_width) :
    (PEG_RADIUS : ℚ) ≤ (rowStep cfg row u pm).1 ∧
      (rowStep cfg row u pm).1 ≤ (cfg.board_width : ℚ) - (PEG_RADIUS : ℚ) := by
  have h8 : (8 : ℚ) ≤ (cfg.board_width : ℚ) := by
    have h : ((2 * PEG_RADIUS : ℕ) : ℚ) ≤ (cfg.board_width : ℚ) := Nat.cast_le.mpr hW
    norm_num [PEG_RADIUS] at h
    exact_mod_cast h
  simp only [rowStep]
  constructor
  · exact le_max_left _ _
  · apply max_le
    · have h4 : (4 : ℚ) ≤ (cfg.board_width : ℚ) - 4 := by linarith
      simpa [PEG_RADIUS] using h4
    · exact min_le_left _ _

/-- C1 (amended): provided the board has at least one row and
`board_width ≥ 2 * PEG_RADIUS`, `calculate_bin_index` returns, for every
initial noise draw and every sequence of uniform draws, an integer in the
inclusive range `[PEG_RADIUS, board_width - PEG_RADIUS]`. -/
theorem calculate_bin_index_in_clamp_range (cfg : Config) (noise : ℚ) (us : ℕ → ℚ)
    (hrows : 1 ≤ cfg.num_rows) (hW : 2 * PEG_RADIUS ≤ cfg.board_width) :
    (PEG_RADIUS : ℤ) ≤ calculate_bin_index cfg noise us ∧
      calculate_bin_index cfg noise us ≤ (cfg.board_width : ℤ) - (PEG_RADIUS : ℤ) := by
  obtain ⟨n, hn⟩ : ∃ n, cfg.num_rows = n + 1 := ⟨cfg.num_rows - 1, by omega⟩
  simp only [calculate_bin_index]
  rw [hn, List.range_succ, List.foldl_append, List.foldl_cons, List.foldl_nil]
  set pm := (List.range n).foldl (fun pm row => rowStep cfg row (us row) pm)
      ((cfg.board_width : ℚ) / 2 + noise, 0) with hpm
  have hb := rowStep_fst_bounds cfg n (us n) pm hW
  have hq0 : (0 : ℚ) ≤ (rowStep cfg n (us n) pm).1 := by
    refine le_trans ?_ hb.1
    norm_num [PEG_RADIUS]
  rw [pyTrunc, if_neg (not_lt.mpr hq0)]
  constructor
  · apply Int.le_floor.mpr
    refine le_trans (le_of_eq ?_) hb.1
    push_cast
    rfl
  · have h2 : (rowStep cfg n (us n) pm).1 ≤ ((((cfg.board_width : ℤ) - (PEG_RADIUS : ℤ) : ℤ)) : ℚ) := by
      push_cast
      exact hb.2
    have h4 : ⌊((((cfg.board_width : ℤ) - (PEG_RADIUS : ℤ) : ℤ)) : ℚ)⌋ =
        (cfg.board_width : ℤ) - (PEG_RADIUS : ℤ) := Int.floor_intCast _
    exact le_of_le_of_eq (Int.floor_le_floor h2) h4

/-- Closed witness for `calculate_bin_index_in_clamp_range` at the
configuration `mkBoard 1 0 8 8` with zero draws. -/
theorem calculate_bin_index_in_clamp_range_witness :
    (PEG_RADIUS : ℤ) ≤ calculate_bin_index (mkBoard 1 0 8 8) 0 (fun _ => 0) ∧
      calculate_bin_index (mkBoard 1 0 8 8) 0 (fun _ => 0) ≤
        ((mkBoard 1 0 8 8).board_width : ℤ) - (PEG_RADIUS : ℤ) :=
  calculate_bin_index_in_clamp_range (mkBoard 1 0 8 8) 0 (fun _ => 0)
    (by decide) (by decide)

/-- C1 counterexample: on the board `mkBoard 0 100000 667 667` — zero rows,
a configuration the constructor accepts — a normal draw of `1000` makes
`calculate_bin_index` return `1333`, outside
`[PEG_RADIUS, board_width - PEG_RADIUS] = [4, 663]`: the clamp runs only
inside the per-row loop, so with no rows nothing bounds the initial
position. -/
theorem calculate_bin_index_range_counterexample :
    ¬ ((PEG_RADIUS : ℤ) ≤ calculate_bin_index (mkBoard 0 100000 667 667) 1000 (fun _ => 0) ∧
        calculate_bin_index (mkBoard 0 100000 667 667) 1000 (fun _ => 0) ≤
          ((mkBoard 0 100000 667 667).board_width : ℤ) - (PEG_RADIUS : ℤ)) := by
  have hval : calculate_bin_index (mkBoard 0 100000 667 667) 1000 (fun _ => 0) = 1333 := by
    simp only [calculate_bin_index, mkBoard, List.range_zero, List.foldl_nil]
    norm_num [pyTrunc]
  rw [hval]
  intro h
  have h2 := h.2
  norm_num [mkBoard, PEG_RADIUS] at h2

end BeanMachine
